import Mathlib

/-!
Verification of `inlinekeyvaluestringparser.js`
(`InlineKeyValueStringParser`): a shallow embedding of the parser over
`List Char`, together with proofs of the specified properties.

The JavaScript strings are modelled as `List Char`; the three static
methods `parser`, `_getValue` and `_unescapeText` are modelled by the
Lean functions `parser`, `getValue` and `unescapeText` below.  The
key-value-list branch of `parser` delegates in the source to the external
`js-yaml` library (`jsyaml.load('{' + s + '}')`), whose code is not part
of this repository; that part is modelled from the specification
(section 4.3), see `loadFlowMapping`.
-/

/-- Strings of the JavaScript source, modelled as lists of characters. -/
abbrev Str := List Char

/-- Characters removed by JavaScript `String.prototype.trim` (WhiteSpace
and LineTerminator code points; the common ones are modelled). -/
def isJsWhitespace (c : Char) : Bool :=
  c = ' ' || c = '\t' || c = '\n' || c = '\r' ||
  c = '\x0b' || c = '\x0c' ||
  c = Char.ofNat 0xa0 || c = Char.ofNat 0xfeff ||
  c = Char.ofNat 0x2028 || c = Char.ofNat 0x2029

/-- Remove leading whitespace. -/
def trimLeft (l : Str) : Str := l.dropWhile isJsWhitespace

/-- Remove trailing whitespace. -/
def trimRight (l : Str) : Str := (l.reverse.dropWhile isJsWhitespace).reverse

/-- JavaScript `text.trim()`: remove leading and trailing whitespace. -/
def trim (l : Str) : Str := trimRight (trimLeft l)

/-- JavaScript `text.toLowerCase()` on the characters we need (ASCII). -/
def toLowerStr (l : Str) : Str := l.map Char.toLower

/-- Body of the number regex after the optional sign:
one or more digits, optionally followed by a dot and one or more digits
(the `\d+(\.\d+)?` part of `/^[+-]?\d+(\.\d+)?$/`). -/
def isNumberBody (l : Str) : Bool :=
  let ds := l.takeWhile Char.isDigit
  let rest := l.dropWhile Char.isDigit
  !ds.isEmpty &&
    (rest.isEmpty ||
      (rest.head? = some '.' && !rest.tail.isEmpty && rest.tail.all Char.isDigit))

/-- The test `/^[+-]?\d+(\.\d+)?$/.test(text)` of `_getValue`. -/
def isNumberToken (l : Str) : Bool :=
  match l with
  | '+' :: rest => isNumberBody rest
  | '-' :: rest => isNumberBody rest
  | _ => isNumberBody l

/-- The test `/^(true|false)$/i.test(text)` of `_getValue`. -/
def isBoolToken (l : Str) : Bool :=
  toLowerStr l = [ 't', 'r', 'u', 'e' ] || toLowerStr l = [ 'f', 'a', 'l', 's', 'e' ]

/-- The test `/^\d{4}-\d{2}-\d{2}$/.test(text)` of `_getValue`: exactly
four digits, a hyphen, two digits, a hyphen, two digits. -/
def isDateToken (l : Str) : Bool :=
  match l with
  | [ a, b, c, d, '-', e, f, '-', g, h ] =>
    a.isDigit && b.isDigit && c.isDigit && d.isDigit &&
    e.isDigit && f.isDigit && g.isDigit && h.isDigit
  | _ => false

/-- The method `_unescapeText`: a single left-to-right pass of
`text.replace(/(\\n|\\t|\\\\)/g, ...)` replacing the two-character
sequences backslash-n, backslash-t and backslash-backslash by newline,
tab and backslash; replaced output is not re-scanned. -/
def unescapeText : Str → Str
  | [] => []
  | [ c ] => [ c ]
  | a :: b :: rest =>
    if a = '\\' then
      if b = 'n' then '\n' :: unescapeText rest
      else if b = 't' then '\t' :: unescapeText rest
      else if b = '\\' then '\\' :: unescapeText rest
      else a :: unescapeText (b :: rest)
    else a :: unescapeText (b :: rest)

/-- The call `text.replace(/''/g, '\'')` of `_getValue`: a single
left-to-right pass replacing each pair of consecutive single quotes by
one single quote. -/
def collapseSingleQuotes : Str → Str
  | [] => []
  | [ c ] => [ c ]
  | a :: b :: rest =>
    if a = '\'' && b = '\'' then '\'' :: collapseSingleQuotes rest
    else a :: collapseSingleQuotes (b :: rest)

/-- The values the parser produces (section 3 of the spec): a tagged
union of string, number, boolean, date and null.  `Number(text)` and
`new Date(text)` on a token that passed the respective regex test are
determined by the literal token text, so the `num` and `date` variants
carry that literal. -/
inductive Value where
  | str (s : Str)
  | num (lit : Str)
  | bool (b : Bool)
  | date (lit : Str)
  | null
  deriving DecidableEq, Repr

/-- The characters of `text.substring(1, text.length - 1)`. -/
def substringInner (l : Str) : Str := (l.drop 1).dropLast

/-- The method `_getValue`: the value-coercion ladder.  Double-quoted
strings are unescaped, single-quoted strings have doubled quotes
collapsed, then in order the number, boolean, date and null tests, and
the plain-string fallback. -/
def getValue (text : Str) : Value :=
  if text.head? = some '"' && decide (2 < text.length) && (text.getLast? = some '"') then
    Value.str (unescapeText (substringInner text))
  else if text.head? = some '\'' && decide (2 < text.length) && (text.getLast? = some '\'') then
    Value.str (collapseSingleQuotes (substringInner text))
  else if isNumberToken text then
    Value.num text
  else if isBoolToken text then
    Value.bool (toLowerStr text = [ 't', 'r', 'u', 'e' ])
  else if isDateToken text then
    Value.date text
  else if text = [ 'n', 'u', 'l', 'l' ] then
    Value.null
  else
    Value.str text

/-- Helper of the modelled splitter: prepend a character to the current
(first) segment. -/
def consCur (c : Char) : List Str → List Str
  | [] => [ [ c ] ]
  | s :: ss => (c :: s) :: ss

/-- Modelled from the spec: the source delegates the key-value-list case
to the external js-yaml library, which is not part of this repository.
Section 4.3: the text is split on top-level commas, where top-level
means outside any quoted span; a comma or colon inside a properly
quoted token is not a delimiter; malformed input (such as an unbalanced
quote) is a structural failure.  The first argument is the current
quote context (`none`, or the quote character of the open span). -/
def splitSegmentsAux : Option Char → Str → Option (List Str)
  | none, [] => some [ [] ]
  | some _, [] => none
  | none, c :: rest =>
    if c = ',' then (splitSegmentsAux none rest).map (fun ss => [] :: ss)
    else if c = '\'' || c = '"' then (splitSegmentsAux (some c) rest).map (consCur c)
    else (splitSegmentsAux none rest).map (consCur c)
  | some q, c :: rest =>
    if c = q then (splitSegmentsAux none rest).map (consCur c)
    else (splitSegmentsAux (some q) rest).map (consCur c)

/-- Modelled from the spec: split the list-shaped text on top-level
commas into segments (section 4.3). -/
def splitSegments (l : Str) : Option (List Str) := splitSegmentsAux none l

/-- Modelled from the spec: split one segment at its first top-level
colon into the key part and the value part (section 4.3); a segment
with no top-level colon is a structural failure.  The first argument is
the current quote context. -/
def splitKVAux : Option Char → Str → Option (Str × Str)
  | _, [] => none
  | none, c :: rest =>
    if c = ':' then some ([], rest)
    else if c = '\'' || c = '"' then (splitKVAux (some c) rest).map (fun p => (c :: p.1, p.2))
    else (splitKVAux none rest).map (fun p => (c :: p.1, p.2))
  | some q, c :: rest =>
    if c = q then (splitKVAux none rest).map (fun p => (c :: p.1, p.2))
    else (splitKVAux (some q) rest).map (fun p => (c :: p.1, p.2))

/-- Modelled from the spec: one segment yields a key (left of its colon,
trimmed) and a raw value token (right of the colon, trimmed)
(section 4.3). -/
def parsePair (seg : Str) : Option (Str × Str) :=
  (splitKVAux none seg).map (fun p => (trim p.1, trim p.2))

/-- Map a fallible function over a list, failing if any element fails. -/
def mapOption {α β : Type} (f : α → Option β) : List α → Option (List β)
  | [] => some []
  | a :: as =>
    match f a with
    | none => none
    | some b => (mapOption f as).map (fun bs => b :: bs)

/-- Modelled from the spec: the structural parse of list-shaped text
into its ordered list of (key, raw value token) pairs (section 4.3). -/
def parsePairs (l : Str) : Option (List (Str × Str)) :=
  (splitSegments l).bind (mapOption parsePair)

/-- Insert a key-value pair into the ordered mapping: a later duplicate
key overwrites the earlier entry in place, a new key is appended
(section 3: insertion order is preserved, keys are unique). -/
def insertPair (m : List (Str × Value)) (k : Str) (v : Value) : List (Str × Value) :=
  match m with
  | [] => [ (k, v) ]
  | p :: rest => if p.1 = k then (k, v) :: rest else p :: insertPair rest k v

/-- Build the ordered mapping from the parsed pairs: each raw value
token is passed through the value coercer `getValue` (section 4.3) and
inserted left to right. -/
def buildMap (ps : List (Str × Str)) : List (Str × Value) :=
  ps.foldl (fun m p => insertPair m p.1 (getValue p.2)) []

/-- Modelled from the spec: the behaviour of
`jsyaml.load('{' + keyValueString + '}')` on list-shaped text, per
section 4.3 — structural parse into pairs, then coercion of each value
token; `none` models the library raising on malformed input. -/
def loadFlowMapping (l : Str) : Option (List (Str × Value)) :=
  (parsePairs l).map buildMap

/-- Look up a key in the resulting mapping. -/
def lookupKey (k : Str) : List (Str × Value) → Option Value
  | [] => none
  | p :: rest => if p.1 = k then some p.2 else lookupKey k rest

/-- Number of entries of the mapping carrying the given key. -/
def countKey (k : Str) (m : List (Str × Value)) : Nat :=
  (m.filter (fun p => p.1 = k)).length

/-- Raw value token of the last (rightmost) occurrence of a key in the
parsed pair list. -/
def lastTokenFor (k : Str) : List (Str × Str) → Option Str
  | [] => none
  | p :: rest =>
    match lastTokenFor k rest with
    | some w => some w
    | none => if p.1 = k then some p.2 else none

/-- The method `parser`: `undefined`/`null` input gives an empty
mapping; the input is trimmed; empty gives an empty mapping; text
starting with a double or single quote, or containing no colon, is the
single default-key shape, keyed `_` and coerced by `getValue`;
otherwise the key-value-list shape is parsed (in the source via
js-yaml inside `try`/`catch`, here via the spec-modelled
`loadFlowMapping`), any structural failure degrading to an empty
mapping. -/
def parser (keyValueString : Option Str) : List (Str × Value) :=
  match keyValueString with
  | none => []
  | some s =>
    let t := trim s
    if t = [] then []
    else if t.head? = some '"' || t.head? = some '\'' || !(decide (':' ∈ t)) then
      [ ( [ '_' ], getValue t) ]
    else
      match loadFlowMapping t with
      | some dataObject => dataObject
      | none => []

/-! Helper lemmas about trimming. -/

theorem trimRight_eq_rdropWhile (l : Str) : trimRight l = l.rdropWhile isJsWhitespace := rfl

theorem dropWhile_head_eq_self {p : Char → Bool} {l : Str}
    (h : ∀ c, l.head? = some c → p c = false) : l.dropWhile p = l := by
  cases l with
  | nil => rfl
  | cons a t => exact List.dropWhile_cons_of_neg (by simp [h a rfl])

theorem head?_trimRight {l : Str} {c : Char} (h : (trimRight l).head? = some c) :
    l.head? = some c := by
  have hp : trimRight l <+: l := by
    rw [trimRight_eq_rdropWhile]; exact List.rdropWhile_prefix _ _
  obtain ⟨t, ht⟩ := hp
  rw [← ht]
  rw [List.head?_append_of_ne_nil _ (by intro hn; rw [hn] at h; simp at h)]
  exact h

theorem head_not_of_trimLeft_eq {l : Str} (h : trimLeft l = l) {c : Char}
    (hc : l.head? = some c) : isJsWhitespace c = false := by
  rw [trimLeft, List.dropWhile_eq_self_iff] at h
  cases l with
  | nil => simp at hc
  | cons a t =>
    have ha := h (by simp)
    have : a = c := by simpa using hc
    subst this
    simpa using ha

theorem trimLeft_of_trimmedLeft {l : Str} (h : trimLeft l = l) :
    trimLeft (trimRight l) = trimRight l := by
  apply dropWhile_head_eq_self
  intro c hc
  exact head_not_of_trimLeft_eq h (head?_trimRight hc)

theorem trimLeft_trimLeft (l : Str) : trimLeft (trimLeft l) = trimLeft l :=
  List.dropWhile_idempotent _ _

theorem trimRight_trimRight (l : Str) : trimRight (trimRight l) = trimRight l := by
  rw [trimRight_eq_rdropWhile, trimRight_eq_rdropWhile]
  exact List.rdropWhile_idempotent _ _

theorem trim_trim (l : Str) : trim (trim l) = trim l := by
  show trimRight (trimLeft (trimRight (trimLeft l))) = trimRight (trimLeft l)
  rw [trimLeft_of_trimmedLeft (trimLeft_trimLeft l), trimRight_trimRight]

theorem trim_eq_self {l : Str}
    (h1 : ∀ c, l.head? = some c → isJsWhitespace c = false)
    (h2 : ∀ c, l.getLast? = some c → isJsWhitespace c = false) :
    trim l = l := by
  have hL : trimLeft l = l := dropWhile_head_eq_self h1
  show trimRight (trimLeft l) = l
  rw [hL, trimRight_eq_rdropWhile, List.rdropWhile_eq_self_iff]
  intro hl
  have := h2 (l.getLast hl) (List.getLast?_eq_getLast_of_ne_nil hl)
  simp [this]

theorem trim_nil_of_ws {l : Str} (h : ∀ c ∈ l, isJsWhitespace c = true) : trim l = [] := by
  have hL : trimLeft l = [] := by
    rw [trimLeft, List.dropWhile_eq_nil_iff]
    intro x hx
    simpa using h x hx
  show trimRight (trimLeft l) = []
  rw [hL]
  rfl

/-! Helper lemmas unfolding `parser`. -/

theorem parser_none_eq : parser none = [] := rfl

theorem parser_empty {s : Str} (h : trim s = []) : parser (some s) = [] := by
  simp [parser, h]

theorem parser_default {s : Str} (h0 : trim s ≠ [])
    (h : (trim s).head? = some '"' ∨ (trim s).head? = some '\'' ∨ ':' ∉ trim s) :
    parser (some s) = [ ( [ '_' ], getValue (trim s)) ] := by
  rcases h with h | h | h <;> simp [parser, h0, h]

theorem parser_list {s : Str}
    (hq1 : (trim s).head? ≠ some '"') (hq2 : (trim s).head? ≠ some '\'')
    (hc : ':' ∈ trim s) :
    parser (some s) = (loadFlowMapping (trim s)).getD [] := by
  have h0 : trim s ≠ [] := by intro h; rw [h] at hc; simp at hc
  cases hlm : loadFlowMapping (trim s) <;> simp [parser, h0, hq1, hq2, hc, hlm]

/-! Claim theorems about the default-key shape and trimming. -/

/-- C3: for every non-empty trimmed text that contains no colon and does
not start with a double or single quote, the parser yields exactly the
single-entry mapping keyed `_` whose value is the value coercer applied
to the text. -/
theorem c3_no_colon_default_key (t : Str)
    (h1 : t ≠ []) (h2 : trim t = t)
    (h3 : t.head? ≠ some '"') (h4 : t.head? ≠ some '\'')
    (h5 : ':' ∉ t) :
    parser (some t) = [ ( [ '_' ], getValue t) ] := by
  have h := parser_default (s := t) (by rw [h2]; exact h1)
    (by rw [h2]; exact Or.inr (Or.inr h5))
  rwa [h2] at h

theorem c3_no_colon_default_key_witness :
    parser (some [ 'a', 'b', 'c' ]) = [ ( [ '_' ], getValue [ 'a', 'b', 'c' ]) ] :=
  c3_no_colon_default_key [ 'a', 'b', 'c' ]
    (by decide) (by decide) (by decide) (by decide) (by decide)

/-- C8: for every input whose trimmed text starts with a double or
single quote, the parser treats it as a single default-key value, even
when the text contains a colon: the quote-prefix check comes before the
colon scan, so the result is the one-entry mapping keyed `_`. -/
theorem c8_quote_prefix_default_key (s : Str) (h0 : trim s ≠ [])
    (hq : (trim s).head? = some '"' ∨ (trim s).head? = some '\'') :
    parser (some s) = [ ( [ '_' ], getValue (trim s)) ] :=
  parser_default h0 (hq.elim Or.inl (fun h => Or.inr (Or.inl h)))

theorem c8_quote_prefix_default_key_witness :
    parser (some [ '\'', 'a', ':', ' ', 'b', '\'' ]) =
      [ ( [ '_' ], Value.str [ 'a', ':', ' ', 'b' ]) ] := by
  have h := c8_quote_prefix_default_key [ '\'', 'a', ':', ' ', 'b', '\'' ]
    (by decide) (by decide)
  rw [h]
  decide

/-- C9: a token of exactly two quote characters fails both quoted-string
rules (the length-greater-than-2 guard), fails the number, boolean,
date and null tests, and is returned verbatim by the fallback,
including its quote characters. -/
theorem c9_two_quote_token_fallback :
    ¬(2 < ([ '"', '"' ] : Str).length) ∧ ¬(2 < ([ '\'', '\'' ] : Str).length) ∧
    isNumberToken [ '"', '"' ] = false ∧ isBoolToken [ '"', '"' ] = false ∧
    isDateToken [ '"', '"' ] = false ∧ ([ '"', '"' ] : Str) ≠ [ 'n', 'u', 'l', 'l' ] ∧
    isNumberToken [ '\'', '\'' ] = false ∧ isBoolToken [ '\'', '\'' ] = false ∧
    isDateToken [ '\'', '\'' ] = false ∧ ([ '\'', '\'' ] : Str) ≠ [ 'n', 'u', 'l', 'l' ] ∧
    getValue [ '"', '"' ] = Value.str [ '"', '"' ] ∧
    getValue [ '\'', '\'' ] = Value.str [ '\'', '\'' ] := by
  decide

/-- C10: the parser is invariant under surrounding whitespace — parsing
any string gives the same result as parsing its trimmed form, and an
input consisting only of whitespace yields the empty mapping. -/
theorem c10_trim_invariant :
    (∀ s : Str, parser (some s) = parser (some (trim s))) ∧
    (∀ s : Str, (∀ c ∈ s, isJsWhitespace c = true) → parser (some s) = []) := by
  constructor
  · intro s
    simp only [parser]
    rw [trim_trim]
  · intro s h
    exact parser_empty (trim_nil_of_ws h)

theorem c10_trim_invariant_witness :
    parser (some [ ' ', 'a', ' ' ]) = parser (some (trim [ ' ', 'a', ' ' ])) ∧
    parser (some [ ' ', ' ' ]) = [] :=
  ⟨c10_trim_invariant.1 [ ' ', 'a', ' ' ], c10_trim_invariant.2 [ ' ', ' ' ] (by decide)⟩

/-! Claim theorems about the value coercer. -/

/-- C4: a token that starts and ends with a double quote and has length
greater than 2 is stripped of its quotes and unescaped in a single
left-to-right pass replacing exactly backslash-n, backslash-t and
backslash-backslash (by newline, tab, backslash), with no re-scanning
of replaced output; every other backslash sequence, including
backslash-quote, is left literally unchanged. -/
theorem c4_double_quoted_unescape :
    (∀ t : Str, t.head? = some '"' → t.getLast? = some '"' → 2 < t.length →
      getValue t = Value.str (unescapeText (substringInner t))) ∧
    (∀ r : Str, unescapeText ('\\' :: 'n' :: r) = '\n' :: unescapeText r) ∧
    (∀ r : Str, unescapeText ('\\' :: 't' :: r) = '\t' :: unescapeText r) ∧
    (∀ r : Str, unescapeText ('\\' :: '\\' :: r) = '\\' :: unescapeText r) ∧
    (∀ (c : Char) (r : Str), c ≠ 'n' → c ≠ 't' → c ≠ '\\' →
      unescapeText ('\\' :: c :: r) = '\\' :: unescapeText (c :: r)) ∧
    (∀ (c : Char) (r : Str), c ≠ '\\' → unescapeText (c :: r) = c :: unescapeText r) ∧
    unescapeText [ '\\' ] = [ '\\' ] := by
  refine ⟨?_, ?_, ?_, ?_, ?_, ?_, rfl⟩
  · intro t h1 h2 h3
    simp [getValue, h1, h2, h3]
  · intro r; rfl
  · intro r; rfl
  · intro r; rfl
  · intro c r hn ht hb
    simp [unescapeText, hn, ht, hb]
  · intro c r hc
    cases r with
    | nil => rfl
    | cons b rest => simp [unescapeText, hc]

theorem c4_double_quoted_unescape_witness :
    getValue [ '"', 'a', '\\', 'n', 'b', '\\', '"', 'c', '"' ] =
      Value.str [ 'a', '\n', 'b', '\\', '"', 'c' ] := by
  have h := c4_double_quoted_unescape.1 [ '"', 'a', '\\', 'n', 'b', '\\', '"', 'c', '"' ]
    (by decide) (by decide) (by decide)
  rw [h]
  decide

/-- C5: a token that starts and ends with a single quote and has length
greater than 2 (and therefore does not match the double-quote rule) is
stripped of its quotes and every pair of consecutive single quotes in
the interior is replaced by one single quote; no backslash processing
occurs, so backslash sequences pass through verbatim. -/
theorem c5_single_quoted_collapse :
    (∀ t : Str, t.head? = some '\'' → t.getLast? = some '\'' → 2 < t.length →
      getValue t = Value.str (collapseSingleQuotes (substringInner t))) ∧
    (∀ r : Str, collapseSingleQuotes ('\'' :: '\'' :: r) = '\'' :: collapseSingleQuotes r) ∧
    (∀ (c : Char) (r : Str), c ≠ '\'' →
      collapseSingleQuotes (c :: r) = c :: collapseSingleQuotes r) ∧
    (∀ (c : Char) (r : Str), c ≠ '\'' →
      collapseSingleQuotes ('\'' :: c :: r) = '\'' :: collapseSingleQuotes (c :: r)) ∧
    (∀ r : Str, collapseSingleQuotes ('\\' :: r) = '\\' :: collapseSingleQuotes r) ∧
    collapseSingleQuotes [ '\'' ] = [ '\'' ] := by
  have hstep : ∀ (c : Char) (r : Str), c ≠ '\'' →
      collapseSingleQuotes (c :: r) = c :: collapseSingleQuotes r := by
    intro c r hc
    cases r with
    | nil => rfl
    | cons b rest => simp [collapseSingleQuotes, hc]
  refine ⟨?_, ?_, hstep, ?_, ?_, rfl⟩
  · intro t h1 h2 h3
    simp [getValue, h1, h2, h3]
  · intro r; rfl
  · intro c r hc
    simp [collapseSingleQuotes, hc]
  · intro r
    exact hstep '\\' r (by decide)

theorem c5_single_quoted_collapse_witness :
    getValue [ '\'', 'a', '\'', '\'', 'b', '\\', 'n', '\'' ] =
      Value.str [ 'a', '\'', 'b', '\\', 'n' ] := by
  have h := c5_single_quoted_collapse.1 [ '\'', 'a', '\'', '\'', 'b', '\\', 'n', '\'' ]
    (by decide) (by decide) (by decide)
  rw [h]
  decide

/-- Characterization of the date regex test: it accepts exactly four
digits, a hyphen, two digits, a hyphen, two digits. -/
theorem isDateToken_iff (t : Str) :
    isDateToken t = true ↔
      ∃ a b c d e f g h : Char,
        t = [ a, b, c, d, '-', e, f, '-', g, h ] ∧
        (a.isDigit ∧ b.isDigit ∧ c.isDigit ∧ d.isDigit ∧
         e.isDigit ∧ f.isDigit ∧ g.isDigit ∧ h.isDigit) := by
  constructor
  · intro hd
    unfold isDateToken at hd
    split at hd
    · rename_i a b c d e f g h
      refine ⟨a, b, c, d, e, f, g, h, rfl, ?_⟩
      simpa [Bool.and_eq_true, and_assoc] using hd
    · simp at hd
  · rintro ⟨a, b, c, d, e, f, g, h, rfl, h1, h2, h3, h4, h5, h6, h7, h8⟩
    simp [isDateToken, h1, h2, h3, h4, h5, h6, h7, h8]

/-- C6: a token that failed the quoted-string, number and boolean rules
coerces to a date built from the literal token text if and only if it
is exactly four digits, hyphen, two digits, hyphen, two digits; a
non-zero-padded token such as 2021-6-1 does not match and falls through
to the plain-string fallback unchanged. -/
theorem c6_strict_date_rule (t : Str)
    (hq1 : ¬(t.head? = some '"' ∧ 2 < t.length ∧ t.getLast? = some '"'))
    (hq2 : ¬(t.head? = some '\'' ∧ 2 < t.length ∧ t.getLast? = some '\''))
    (hn : isNumberToken t = false) (hb : isBoolToken t = false) :
    (getValue t = Value.date t ↔
      ∃ a b c d e f g h : Char,
        t = [ a, b, c, d, '-', e, f, '-', g, h ] ∧
        (a.isDigit ∧ b.isDigit ∧ c.isDigit ∧ d.isDigit ∧
         e.isDigit ∧ f.isDigit ∧ g.isDigit ∧ h.isDigit)) ∧
    getValue [ '2', '0', '2', '1', '-', '6', '-', '1' ] =
      Value.str [ '2', '0', '2', '1', '-', '6', '-', '1' ] := by
  refine ⟨?_, by decide⟩
  rw [← isDateToken_iff]
  constructor
  · intro h
    unfold getValue at h
    split_ifs at h <;> simp_all
  · intro hd
    have hq1' : ¬((t.head? = some '"' && decide (2 < t.length) &&
        (t.getLast? = some '"')) = true) := by
      simp only [Bool.and_eq_true, decide_eq_true_eq]
      rintro ⟨⟨h1, h2⟩, h3⟩
      exact hq1 ⟨h1, h2, h3⟩
    have hq2' : ¬((t.head? = some '\'' && decide (2 < t.length) &&
        (t.getLast? = some '\'')) = true) := by
      simp only [Bool.and_eq_true, decide_eq_true_eq]
      rintro ⟨⟨h1, h2⟩, h3⟩
      exact hq2 ⟨h1, h2, h3⟩
    simp [getValue, hq1', hq2', hn, hb, hd]

theorem c6_strict_date_rule_witness :
    getValue [ '2', '0', '2', '1', '-', '0', '6', '-', '0', '1' ] =
      Value.date [ '2', '0', '2', '1', '-', '0', '6', '-', '0', '1' ] ∧
    getValue [ '2', '0', '2', '1', '-', '6', '-', '1' ] =
      Value.str [ '2', '0', '2', '1', '-', '6', '-', '1' ] := by
  have h := c6_strict_date_rule [ '2', '0', '2', '1', '-', '0', '6', '-', '0', '1' ]
    (by decide) (by decide) (by decide) (by decide)
  have h2 := c6_strict_date_rule [ '2', '0', '2', '1', '-', '6', '-', '1' ]
    (by decide) (by decide) (by decide) (by decide)
  exact ⟨h.1.mpr ⟨'2', '0', '2', '1', '0', '6', '0', '1', rfl, by decide⟩, h2.2⟩

/-! Helper lemmas for the modelled key-value-list parse. -/

theorem trimLeft_eq_self {l : Str}
    (h : ∀ c, l.head? = some c → isJsWhitespace c = false) : trimLeft l = l :=
  dropWhile_head_eq_self h

theorem trimRight_eq_self {l : Str}
    (h : ∀ c, l.getLast? = some c → isJsWhitespace c = false) : trimRight l = l := by
  rw [trimRight_eq_rdropWhile, List.rdropWhile_eq_self_iff]
  intro hl
  have := h (l.getLast hl) (List.getLast?_eq_getLast_of_ne_nil hl)
  simp [this]

theorem trim_space_cons {v : Str}
    (hh : ∀ c, v.head? = some c → isJsWhitespace c = false)
    (hl : ∀ c, v.getLast? = some c → isJsWhitespace c = false) :
    trim (' ' :: v) = v := by
  show trimRight (trimLeft (' ' :: v)) = v
  have h1 : trimLeft (' ' :: v) = v := by
    rw [trimLeft, List.dropWhile_cons_of_pos (by decide)]
    exact trimLeft_eq_self hh
  rw [h1]
  exact trimRight_eq_self hl

theorem splitSegmentsAux_no_special {s : Str}
    (h : ∀ c ∈ s, c ≠ ',' ∧ c ≠ '\'' ∧ c ≠ '"') :
    splitSegmentsAux none s = some [ s ] := by
  induction s with
  | nil => rfl
  | cons c rest ih =>
    obtain ⟨h1, h2, h3⟩ := h c (List.mem_cons_self c rest)
    have hrest := ih (fun x hx => h x (List.mem_cons_of_mem c hx))
    simp [splitSegmentsAux, h1, h2, h3, hrest, consCur]

theorem splitKVAux_plain_key {k : Str} (rest : Str)
    (h : ∀ c ∈ k, c ≠ ':' ∧ c ≠ '\'' ∧ c ≠ '"') :
    splitKVAux none (k ++ ':' :: rest) = some (k, rest) := by
  induction k with
  | nil => simp [splitKVAux]
  | cons c ktl ih =>
    obtain ⟨h1, h2, h3⟩ := h c (List.mem_cons_self c ktl)
    have htl := ih (fun x hx => h x (List.mem_cons_of_mem c hx))
    simp [splitKVAux, h1, h2, h3, htl]

/-- C2: the parser never raises — it is a total function by
construction — and an absent or null input, an input empty after
trimming, and a key-value-list-shaped input whose structural parse
fails all return the empty mapping instead of propagating an error. -/
theorem c2_never_raises_degrades :
    parser none = [] ∧
    (∀ s : Str, trim s = [] → parser (some s) = []) ∧
    (∀ s : Str, (trim s).head? ≠ some '"' → (trim s).head? ≠ some '\'' →
      ':' ∈ trim s → loadFlowMapping (trim s) = none → parser (some s) = []) := by
  refine ⟨rfl, ?_, ?_⟩
  · intro s h
    exact parser_empty h
  · intro s h1 h2 h3 h4
    rw [parser_list h1 h2 h3, h4]
    rfl

theorem c2_never_raises_degrades_witness :
    parser none = [] ∧
    parser (some [ ' ', ' ' ]) = [] ∧
    parser (some [ 'a', ':', ' ', '\'', 'b' ]) = [] :=
  ⟨c2_never_raises_degrades.1,
   c2_never_raises_degrades.2.1 [ ' ', ' ' ] (by decide),
   c2_never_raises_degrades.2.2 [ 'a', ':', ' ', '\'', 'b' ]
     (by decide) (by decide) (by decide) (by decide)⟩

/-- C1: for a plain key and a plain raw value token, the value stored
under the key by the key-value-pair shape equals the value coercer
`getValue` applied to the token — the very function the default-key
shape applies to its token — so coercion behaves identically on both
paths.  The key must be non-empty with no whitespace, colon, comma or
quote characters; the token must be non-empty, contain no colon, comma
or quote characters, and carry no surrounding whitespace. -/
theorem c1_coercion_identical (k v : Str)
    (hk_ne : k ≠ [])
    (hk : ∀ c ∈ k, isJsWhitespace c = false ∧ c ≠ ':' ∧ c ≠ ',' ∧ c ≠ '"' ∧ c ≠ '\'')
    (hv_ne : v ≠ [])
    (hv : ∀ c ∈ v, c ≠ ':' ∧ c ≠ ',' ∧ c ≠ '"' ∧ c ≠ '\'')
    (hv_head : ∀ c, v.head? = some c → isJsWhitespace c = false)
    (hv_last : ∀ c, v.getLast? = some c → isJsWhitespace c = false) :
    parser (some (k ++ ':' :: ' ' :: v)) = [ (k, getValue v) ] ∧
    parser (some v) = [ ( [ '_' ], getValue v) ] := by
  obtain ⟨a, ktl, rfl⟩ : ∃ a ktl, k = a :: ktl := by
    cases k with
    | nil => exact absurd rfl hk_ne
    | cons a ktl => exact ⟨a, ktl, rfl⟩
  set k := a :: ktl with hkdef
  have hs_head : ∀ c, (k ++ ':' :: ' ' :: v).head? = some c → isJsWhitespace c = false := by
    intro c hc
    simp [hkdef] at hc
    subst hc
    exact (hk a (List.mem_cons_self a ktl)).1
  have hs_last : ∀ c, (k ++ ':' :: ' ' :: v).getLast? = some c → isJsWhitespace c = false := by
    intro c hc
    rw [show (k ++ ':' :: ' ' :: v) = (k ++ [ ':', ' ' ]) ++ v from by simp] at hc
    rw [List.getLast?_append_of_ne_nil _ hv_ne] at hc
    exact hv_last c hc
  have htrim : trim (k ++ ':' :: ' ' :: v) = k ++ ':' :: ' ' :: v :=
    trim_eq_self hs_head hs_last
  have hvtrim : trim v = v := trim_eq_self hv_head hv_last
  constructor
  · have hq1 : (trim (k ++ ':' :: ' ' :: v)).head? ≠ some '"' := by
      rw [htrim]
      simp [hkdef]
      intro hc
      exact absurd (hc ▸ (hk a (List.mem_cons_self a ktl)).2.2.2.1) (by simp)
    have hq2 : (trim (k ++ ':' :: ' ' :: v)).head? ≠ some '\'' := by
      rw [htrim]
      simp [hkdef]
      intro hc
      exact absurd (hc ▸ (hk a (List.mem_cons_self a ktl)).2.2.2.2) (by simp)
    have hc : ':' ∈ trim (k ++ ':' :: ' ' :: v) := by
      rw [htrim]
      exact List.mem_append_right _ (List.mem_cons_self _ _)
    rw [parser_list hq1 hq2 hc, htrim]
    have hseg : splitSegments (k ++ ':' :: ' ' :: v) = some [ k ++ ':' :: ' ' :: v ] := by
      apply splitSegmentsAux_no_special
      intro c hc
      rcases List.mem_append.mp hc with hck | hcv
      · exact ⟨(hk c hck).2.2.1, (hk c hck).2.2.2.2, (hk c hck).2.2.2.1⟩
      · rcases hcv with _ | ⟨_, hcv⟩
        · exact ⟨by decide, by decide, by decide⟩
        · rcases hcv with _ | ⟨_, hcv⟩
          · exact ⟨by decide, by decide, by decide⟩
          · exact ⟨(hv c hcv).2.1, (hv c hcv).2.2.2, (hv c hcv).2.2.1⟩
    have hkv : splitKVAux none (k ++ ':' :: ' ' :: v) = some (k, ' ' :: v) :=
      splitKVAux_plain_key (' ' :: v)
        (fun c hck => ⟨(hk c hck).2.1, (hk c hck).2.2.2.2, (hk c hck).2.2.2.1⟩)
    have hktrim : trim k = k :=
      trim_eq_self
        (fun c hc => by
          simp [hkdef] at hc
          exact hc ▸ (hk a (List.mem_cons_self a ktl)).1)
        (fun c hc => (hk c (List.mem_of_mem_getLast? hc)).1)
    have hpair : parsePair (k ++ ':' :: ' ' :: v) = some (k, v) := by
      rw [parsePair, hkv]
      simp [hktrim, trim_space_cons hv_head hv_last]
    have hload : loadFlowMapping (k ++ ':' :: ' ' :: v) = some [ (k, getValue v) ] := by
      unfold loadFlowMapping parsePairs
      rw [hseg]
      simp [mapOption, hpair, buildMap, insertPair]
    rw [hload]
    rfl
  · have h := parser_default (s := v) (by rw [hvtrim]; exact hv_ne)
      (by
        rw [hvtrim]
        refine Or.inr (Or.inr ?_)
        intro hcv
        exact absurd rfl (hv ':' hcv).1)
    rwa [hvtrim] at h

theorem c1_coercion_identical_witness :
    parser (some [ 'n', 'a', 'm', 'e', ':', ' ', 'f', 'o', 'o' ]) =
      [ ( [ 'n', 'a', 'm', 'e' ], getValue [ 'f', 'o', 'o' ]) ] ∧
    parser (some [ 'f', 'o', 'o' ]) = [ ( [ '_' ], getValue [ 'f', 'o', 'o' ]) ] := by
  have h := c1_coercion_identical [ 'n', 'a', 'm', 'e' ] [ 'f', 'o', 'o' ]
    (by decide) (by decide) (by decide) (by decide) (by decide) (by decide)
  exact ⟨h.1, h.2⟩

/-! Helper lemmas about the ordered mapping for the duplicate-key claim. -/

theorem countKey_cons (k : Str) (p : Str × Value) (m : List (Str × Value)) :
    countKey k (p :: m) = (if p.1 = k then 1 else 0) + countKey k m := by
  by_cases h : p.1 = k <;> simp [countKey, List.filter_cons, h] <;> omega

theorem lookupKey_insertPair_self (m : List (Str × Value)) (k : Str) (v : Value) :
    lookupKey k (insertPair m k v) = some v := by
  induction m with
  | nil => simp [insertPair, lookupKey]
  | cons p rest ih =>
    by_cases h : p.1 = k
    · simp [insertPair, h, lookupKey]
    · simp [insertPair, h, lookupKey, ih]

theorem lookupKey_insertPair_other (m : List (Str × Value)) (k k' : Str) (v : Value)
    (h : k' ≠ k) : lookupKey k (insertPair m k' v) = lookupKey k m := by
  induction m with
  | nil => simp [insertPair, lookupKey, h]
  | cons p rest ih =>
    by_cases hp : p.1 = k'
    · rw [show insertPair (p :: rest) k' v = (k', v) :: rest from by simp [insertPair, hp]]
      by_cases hk : p.1 = k
      · exact absurd (hp ▸ hk) h
      · simp [lookupKey, h, hk]
    · rw [show insertPair (p :: rest) k' v = p :: insertPair rest k' v from by
        simp [insertPair, hp]]
      by_cases hk : p.1 = k
      · simp [lookupKey, hk]
      · simp [lookupKey, hk, ih]

theorem countKey_insertPair_self (m : List (Str × Value)) (k : Str) (v : Value) :
    countKey k (insertPair m k v) =
      if countKey k m = 0 then 1 else countKey k m := by
  induction m with
  | nil => simp [insertPair, countKey, List.filter]
  | cons p rest ih =>
    by_cases hp : p.1 = k
    · rw [show insertPair (p :: rest) k v = (k, v) :: rest from by simp [insertPair, hp]]
      rw [countKey_cons, countKey_cons]
      simp [hp]
    · rw [show insertPair (p :: rest) k v = p :: insertPair rest k v from by
        simp [insertPair, hp]]
      rw [countKey_cons, countKey_cons, ih]
      simp [hp]

theorem countKey_insertPair_other (m : List (Str × Value)) (k k' : Str) (v : Value)
    (h : k' ≠ k) : countKey k (insertPair m k' v) = countKey k m := by
  induction m with
  | nil => simp [insertPair, countKey, List.filter, h]
  | cons p rest ih =>
    by_cases hp : p.1 = k'
    · rw [show insertPair (p :: rest) k' v = (k', v) :: rest from by simp [insertPair, hp]]
      rw [countKey_cons, countKey_cons]
      simp [h, hp]
    · rw [show insertPair (p :: rest) k' v = p :: insertPair rest k' v from by
        simp [insertPair, hp]]
      rw [countKey_cons, countKey_cons, ih]

theorem lookupKey_foldl_insert (ps : List (Str × Str)) (m : List (Str × Value)) (k : Str) :
    lookupKey k (ps.foldl (fun m p => insertPair m p.1 (getValue p.2)) m) =
      match lastTokenFor k ps with
      | some w => some (getValue w)
      | none => lookupKey k m := by
  induction ps generalizing m with
  | nil => simp [lastTokenFor]
  | cons p rest ih =>
    rw [List.foldl_cons, ih]
    cases hl : lastTokenFor k rest with
    | some w => simp [lastTokenFor, hl]
    | none =>
      by_cases hp : p.1 = k
      · subst hp
        simp [lastTokenFor, hl, lookupKey_insertPair_self]
      · simp [lastTokenFor, hl, hp, lookupKey_insertPair_other m k p.1 (getValue p.2) hp]

theorem countKey_foldl_insert (ps : List (Str × Str)) (m : List (Str × Value)) (k : Str) :
    countKey k (ps.foldl (fun m p => insertPair m p.1 (getValue p.2)) m) =
      match lastTokenFor k ps with
      | some _ => if countKey k m = 0 then 1 else countKey k m
      | none => countKey k m := by
  induction ps generalizing m with
  | nil => simp [lastTokenFor]
  | cons p rest ih =>
    rw [List.foldl_cons, ih]
    cases hl : lastTokenFor k rest with
    | some w =>
      by_cases hp : p.1 = k
      · subst hp
        simp only [lastTokenFor, hl, countKey_insertPair_self]
        split_ifs <;> omega
      · simp [lastTokenFor, hl, countKey_insertPair_other m k p.1 (getValue p.2) hp]
    | none =>
      by_cases hp : p.1 = k
      · subst hp
        simp [lastTokenFor, hl, countKey_insertPair_self]
      · simp [lastTokenFor, hl, hp, countKey_insertPair_other m k p.1 (getValue p.2) hp]

theorem lastTokenFor_eq_none_iff (k : Str) (ps : List (Str × Str)) :
    lastTokenFor k ps = none ↔ ∀ p ∈ ps, p.1 ≠ k := by
  induction ps with
  | nil => simp [lastTokenFor]
  | cons p rest ih =>
    cases hl : lastTokenFor k rest with
    | some w =>
      rw [hl] at ih
      simp only [lastTokenFor, hl, List.forall_mem_cons]
      constructor
      · intro h
        exact Option.noConfusion h
      · rintro ⟨-, hall⟩
        exact ih.mpr hall
    | none =>
      have hall := ih.mp hl
      by_cases hp : p.1 = k
      · simp [lastTokenFor, hl, hp]
      · simp [lastTokenFor, hl, hp]
        intro a b hab
        exact hall (a, b) hab

/-- C7: on a key-value-list input whose structural parse succeeds and in
which a key appears more than once, the parser returns a mapping with
exactly one entry for that key, whose value is the coercion of the
last (rightmost) occurrence's raw value token. -/
theorem c7_duplicate_key_overwrites (s : Str) (ps : List (Str × Str)) (k : Str)
    (hq1 : (trim s).head? ≠ some '"') (hq2 : (trim s).head? ≠ some '\'')
    (hc : ':' ∈ trim s)
    (hps : parsePairs (trim s) = some ps)
    (hdup : 1 < (ps.filter (fun p => p.1 = k)).length) :
    countKey k (parser (some s)) = 1 ∧
    lookupKey k (parser (some s)) = (lastTokenFor k ps).map getValue := by
  have hload : loadFlowMapping (trim s) = some (buildMap ps) := by
    unfold loadFlowMapping
    rw [hps]
    rfl
  rw [parser_list hq1 hq2 hc, hload]
  have hex : ∃ w, lastTokenFor k ps = some w := by
    cases hlt : lastTokenFor k ps with
    | some w => exact ⟨w, rfl⟩
    | none =>
      have hall := (lastTokenFor_eq_none_iff k ps).mp hlt
      have hnil : ps.filter (fun p => p.1 = k) = [] := by
        rw [List.filter_eq_nil_iff]
        intro p hp
        simpa using hall p hp
      rw [hnil] at hdup
      simp at hdup
  obtain ⟨w, hw⟩ := hex
  simp only [Option.getD_some]
  unfold buildMap
  rw [countKey_foldl_insert, lookupKey_foldl_insert, hw]
  simp [countKey]

theorem c7_duplicate_key_overwrites_witness :
    countKey [ 'a' ] (parser (some [ 'a', ':', '1', ',', 'a', ':', '2' ])) = 1 ∧
    lookupKey [ 'a' ] (parser (some [ 'a', ':', '1', ',', 'a', ':', '2' ])) =
      some (Value.num [ '2' ]) := by
  have h := c7_duplicate_key_overwrites [ 'a', ':', '1', ',', 'a', ':', '2' ]
    [ ( [ 'a' ], [ '1' ]), ( [ 'a' ], [ '2' ]) ] [ 'a' ]
    (by decide) (by decide) (by decide) (by decide) (by decide)
  refine ⟨h.1, ?_⟩
  rw [h.2]
  decide
